import Mathlib

/-!
Verification development for the RAG backend (`backend/app/rag.py`).

Python strings are modelled as `List Char` (Python indexes and measures
strings in code points, which matches `Char` lists).  Database and HTTP
results are passed in as explicit parameters, so every function is pure
and executable.  Floats that the code only passes around (similarity
thresholds, the `0.01` placeholder similarity) are modelled as `Rat`.
-/

namespace XQT5

open scoped List

/-! ### Character-level model of the Python string operations used -/

/-- Python whitespace (`str.strip`, `\s`), ASCII portion. -/
def isSpaceChar (c : Char) : Bool :=
  c = ' ' || c = '\n' || c = '\t' || c = '\r' || c = '\x0b' || c = '\x0c'

/-- Python `str.strip()`: drop leading and trailing whitespace. -/
def stripChars (l : List Char) : List Char :=
  ((l.dropWhile isSpaceChar).reverse.dropWhile isSpaceChar).reverse

/-- Python `text.split("\n\n")`: split at non-overlapping occurrences of the
two-character separator, leftmost first. -/
def splitPara : List Char → List (List Char)
  | [] => [[]]
  | [a] => [[a]]
  | a :: b :: rest =>
    if a = '\n' ∧ b = '\n' then [] :: splitPara rest
    else
      match splitPara (b :: rest) with
      | [] => [[a]]
      | h :: t => (a :: h) :: t

/-- The paragraph separator `"\n\n"`. -/
def nlnl : List Char := ['\n', '\n']

/-! ### Configured defaults (`backend/app/config.py`) -/

def CHUNK_SIZE : Nat := 1500
def CHUNK_OVERLAP : Nat := 200
def RAG_TOP_K : Nat := 5
def RAG_SIMILARITY_THRESHOLD : Rat := 3/10

/-! ### The effective `chunk_text` (rag.py lines 298-337)

`rag.py` defines `chunk_text` twice.  The definition at lines 98-228 is a
markdown-section-aware, token-based chunker; the definition at lines
298-337 is character-based and, being the later `def` in the module,
shadows the first one.  The binding below models the *effective* function,
i.e. the second definition.

The inner `while para:` loop of the source does not terminate when
`overlap >= chunk_size < len(para)`; the model uses `len(para) + 1` fuel,
which is exhausted exactly (and only) in that divergent configuration. -/

/-- The hard-split loop of the effective `chunk_text`:
`while para: chunks.append(para[:chunk_size]); para = para[max(0, chunk_size-overlap):];
if len(para) <= overlap: break`. -/
def hardSplit (cs ov : Nat) : Nat → List Char → List (List Char)
  | _, [] => []
  | 0, _ => []
  | fuel + 1, para =>
    if (para.drop (cs - ov)).length ≤ ov then [para.take cs]
    else para.take cs :: hardSplit cs ov fuel (para.drop (cs - ov))

/-- The flush step `if current: chunks.append(current)`. -/
def chunkFlush (chunks : List (List Char)) (current : List Char) : List (List Char) :=
  if current.isEmpty then chunks else chunks ++ [current]

/-- Seeding the next buffer with the trailing `overlap` characters of the
previous chunk (rag.py lines 327-332): `prev[-overlap:] if len(prev) >
overlap else prev`, joined to the paragraph with `"\n\n"`; without a
previous chunk or at zero overlap, just the paragraph. -/
def overlapSeed (ov : Nat) (chunks1 : List (List Char)) (p : List Char) : List Char :=
  if ¬chunks1.isEmpty ∧ 0 < ov then
    (if ov < (chunks1.getLastD []).length then
      (chunks1.getLastD []).drop ((chunks1.getLastD []).length - ov)
    else chunks1.getLastD []) ++ nlnl ++ p
  else p

/-- The paragraph loop of the effective `chunk_text`, with explicit
`chunks` / `current` state. -/
def chunkGo (cs ov : Nat) : List (List Char) → List (List Char) → List Char → List (List Char)
  | [], chunks, current => chunkFlush chunks current
  | para0 :: rest, chunks, current =>
    if (stripChars para0).isEmpty then chunkGo cs ov rest chunks current
    else if current.length + (stripChars para0).length + 2 ≤ cs then
      chunkGo cs ov rest chunks
        (if current.isEmpty then stripChars para0 else current ++ nlnl ++ stripChars para0)
    else if cs < (stripChars para0).length then
      chunkGo cs ov rest
        (chunkFlush chunks current ++
          hardSplit cs ov ((stripChars para0).length + 1) (stripChars para0)) []
    else
      chunkGo cs ov rest (chunkFlush chunks current)
        (overlapSeed ov (chunkFlush chunks current) (stripChars para0))

/-- The effective `chunk_text` (rag.py lines 298-337): paragraph-greedy,
measured in characters. -/
def chunk_text (text : List Char) (cs ov : Nat) :
    List (List Char) :=
  if (stripChars text).isEmpty then []
  else chunkGo cs ov (splitPara text) [] []

/-! ### Lowercasing (`str.lower()`)

Modelled characterwise for the Basic Latin range plus the German capital
umlauts that occur in this code base's bilingual keyword sets.  All
keyword constants in `rag.py` are ASCII, so this suffices for the
comparisons the code performs. -/

def pyLowerChar (c : Char) : Char :=
  if c = 'Ä' then 'ä' else if c = 'Ö' then 'ö' else if c = 'Ü' then 'ü' else c.toLower

def pyLower (l : List Char) : List Char := l.map pyLowerChar

/-! ### Keyword sets (rag.py lines 235-275) -/

def IMAGE_QUERY_KEYWORDS : List (List Char) :=
  ["image", "images", "picture", "pictures", "photo", "photos", "figure", "figures",
   "chart", "charts", "graph", "graphs", "diagram", "diagrams", "screenshot", "screenshots",
   "bild", "bilder", "grafik", "grafiken", "abbildung", "abbildungen", "diagramm", "diagramme",
   "chartanalyse", "visual", "visuell", "tabellenbild", "plot"].map String.toList

def GERMAN_STOPWORDS : List (List Char) :=
  ["aber", "als", "also", "am", "an", "auch", "auf", "aus", "bei", "bin",
   "bis", "bitte", "da", "damit", "dann", "das", "dass", "dem", "den", "der",
   "des", "dessen", "die", "dies", "diese", "diesem", "diesen", "dieser",
   "dieses", "doch", "dort", "du", "durch", "ein", "eine", "einem", "einen",
   "einer", "eines", "einige", "er", "es", "etwa", "euch", "falls", "für",
   "gegen", "gibt", "haben", "hat", "hatte", "hatten", "hier", "ihm", "ihn",
   "ihnen", "ihr", "ihre", "ihrem", "ihren", "ihrer", "ihres", "im", "in",
   "ins", "ist", "ja", "jede", "jedem", "jeden", "jeder", "jedes", "jetzt",
   "kann", "kein", "keine", "keinem", "keinen", "keiner", "keines", "können",
   "könnte", "man", "manche", "manchem", "manchen", "mancher", "manches",
   "mehr", "mein", "meine", "meinem", "meinen", "meiner", "meines", "mich",
   "mir", "mit", "muss", "nach", "nicht", "nichts", "noch", "nun", "nur",
   "ob", "oder", "ohne", "per", "schon", "sehr", "sein", "seine", "seinem",
   "seinen", "seiner", "seines", "sich", "sie", "sind", "so", "solche",
   "solchem", "solchen", "solcher", "solches", "soll", "sollte", "sonst",
   "sowie", "über", "um", "und", "uns", "unter", "vom", "von", "vor", "war",
   "waren", "was", "weg", "weil", "weit", "welche", "welchem", "welchen",
   "welcher", "welches", "wenn", "wer", "werden", "wie", "wieder", "will",
   "wir", "wird", "wo", "worden", "wäre", "während", "zu", "zum", "zur",
   "zwar", "zwischen",
   "a", "about", "all", "are", "be", "been", "by", "can", "do", "for",
   "from", "get", "give", "has", "have", "how", "i", "if", "in", "is",
   "it", "its", "list", "me", "my", "no", "not", "of", "on", "or",
   "please", "show", "tell", "that", "the", "their", "them", "there",
   "they", "this", "to", "us", "was", "we", "what", "which", "who",
   "with", "you", "your"].map String.toList

/-! ### Substring containment (Python `kw in q`) -/

/-- Whether `needle` occurs at the start of `hay`. -/
def beginsWith : List Char → List Char → Bool
  | [], _ => true
  | _ :: _, [] => false
  | a :: as, b :: bs => a = b && beginsWith as bs

/-- Whether `needle` occurs somewhere inside `hay` (Python `in` on strings). -/
def containsSub (needle : List Char) : List Char → Bool
  | [] => needle.isEmpty
  | c :: t => beginsWith needle (c :: t) || containsSub needle t

/-! ### `should_use_image_retrieval` (rag.py lines 286-295) -/

def should_use_image_retrieval (query imageMode : List Char) : Bool :=
  let mode := pyLower (if imageMode.isEmpty then "auto".toList else imageMode)
  if mode = "off".toList then false
  else if mode = "on".toList then true
  else
    let q := pyLower query
    IMAGE_QUERY_KEYWORDS.any (fun kw => containsSub kw q)

/-! ### `_extract_query_keywords` (rag.py lines 452-465) -/

/-- A character matched by the splitting regex `[\s,;?!.]+`. -/
def isSepChar (c : Char) : Bool :=
  isSpaceChar c || c = ',' || c = ';' || c = '?' || c = '!' || c = '.'

/-- Split into maximal runs of non-separator characters.  `re.split` with a
`[...]+` pattern additionally yields empty strings at the two boundaries
when the input starts/ends with a separator; those are removed by the
`len(t) >= 4` filter immediately downstream, so they are dropped here. -/
def splitTokensGo : List Char → List Char → List (List Char)
  | [], acc => if acc.isEmpty then [] else [acc.reverse]
  | c :: rest, acc =>
    if isSepChar c then
      if acc.isEmpty then splitTokensGo rest [] else acc.reverse :: splitTokensGo rest []
    else splitTokensGo rest (c :: acc)

def splitTokens (l : List Char) : List (List Char) := splitTokensGo l []

/-- The order `sorted(..., key=len, reverse=True)` uses: longer first, stable. -/
def byLenDesc (a b : List Char) : Prop := b.length ≤ a.length

instance : DecidableRel byLenDesc := fun a b => Nat.decLe b.length a.length

instance : IsTotal (List Char) byLenDesc := ⟨fun a b => Nat.le_total b.length a.length⟩

instance : IsTrans (List Char) byLenDesc :=
  ⟨fun _ _ _ h1 h2 => Nat.le_trans h2 h1⟩

/-- Model of `_extract_query_keywords`: tokenize the lowercased query, keep terms of
length ≥ 4 that are not stopwords, deduplicate (`set(...)`), sort longest
first, return at most `maxKeywords`.  Python's `set` iteration order is
arbitrary; the model deduplicates deterministically — every property stated
about the result is insensitive to that order. -/
def extract_query_keywords (query : List Char) (maxKeywords : Nat) : List (List Char) :=
  (List.insertionSort byLenDesc
    (((splitTokens (pyLower query)).filter
      (fun t => 4 ≤ t.length && ¬(t ∈ GERMAN_STOPWORDS))).dedup)).take maxKeywords

/-! ### Retrieval data model

Database rows (`app_document_chunks` joined with filename) are modelled as
`Chunk`.  Database and HTTP results are explicit parameters: a failing
call (Python exception) is `none`, a succeeding one `some rows`.  The
`similarity` float is only ever assigned and compared, never computed
with, so `Rat` models it exactly (`0.01` ↦ `1/100`). -/

structure Chunk where
  id : Nat
  document_id : String
  chunk_index : Nat
  content : String
  token_count : Nat := 0
  filename : String := "unknown"
  similarity : Rat := 0
  rerank_score : Option Rat := none
deriving DecidableEq, Repr, Inhabited

/-- Lookup `doc_id_to_filename.get(doc_id, "unknown")`; the dict is built left to
right so a duplicated id keeps the *last* pair. -/
def lookupFilename (docs : List (String × String)) (docId : String) : String :=
  match docs.reverse.find? (fun d => d.1 = docId) with
  | some d => d.2
  | none => "unknown"

/-- The enrichment `row["filename"] = ...; row["similarity"] = 0.01` (rag.py lines 528-529). -/
def enrich (docs : List (String × String)) (row : Chunk) : Chunk :=
  { row with filename := lookupFilename docs row.document_id, similarity := 1/100 }

/-- Inner row loop of `_keyword_supplement_chunks` (rag.py lines 523-532):
skip rows already seen or excluded, enrich with filename and the
placeholder similarity, stop at `limit`. -/
def addRows (docs : List (String × String)) (limit : Nat) (excludeIds : List Nat) :
    List Chunk → List Chunk → List Nat → List Chunk × List Nat
  | [], supp, seen => (supp, seen)
  | row :: rest, supp, seen =>
    if row.id ∈ seen ∨ row.id ∈ excludeIds then
      addRows docs limit excludeIds rest supp seen
    else if limit ≤ (supp ++ [enrich docs row]).length then
      (supp ++ [enrich docs row], row.id :: seen)
    else
      addRows docs limit excludeIds rest (supp ++ [enrich docs row]) (row.id :: seen)

/-- Outer keyword loop of `_keyword_supplement_chunks` (rag.py lines
511-534).  `rowsFor kw` is the ILIKE query result for `kw`; `none` models
the caught exception (logged, keyword skipped). -/
def suppGo (docs : List (String × String)) (rowsFor : List Char → Option (List Chunk))
    (limit : Nat) (excludeIds : List Nat) :
    List (List Char) → List Chunk → List Nat → List Chunk
  | [], supp, _ => supp
  | kw :: rest, supp, seen =>
    if limit ≤ supp.length then supp
    else
      match rowsFor kw with
      | none => suppGo docs rowsFor limit excludeIds rest supp seen
      | some rows =>
        suppGo docs rowsFor limit excludeIds rest
          (addRows docs limit excludeIds rows supp seen).1
          (addRows docs limit excludeIds rows supp seen).2

/-- Model of `_keyword_supplement_chunks` (rag.py lines 468-536).  `docsResult` is
the scope-filtered `app_documents` query: `none` models the caught
exception, `some docs` the `(id, filename)` rows. -/
def keyword_supplement_chunks (docsResult : Option (List (String × String)))
    (rowsFor : List Char → Option (List Chunk)) (keywords : List (List Char))
    (limit : Nat) (excludeIds : List Nat) : List Chunk :=
  if keywords.isEmpty then []
  else
    match docsResult with
    | none => []
    | some docs =>
      if docs.isEmpty then []
      else suppGo docs rowsFor limit excludeIds keywords [] []

/-- Model of `_search_chunks_hybrid` (rag.py lines 539-580), with the vector-RPC
result passed in as `vectorChunks`. -/
def search_chunks_hybrid (vectorChunks : List Chunk)
    (docsResult : Option (List (String × String)))
    (rowsFor : List Char → Option (List Chunk))
    (query : List Char) (topK : Nat) : List Chunk :=
  if (extract_query_keywords query 3).isEmpty then vectorChunks
  else if (keyword_supplement_chunks docsResult rowsFor (extract_query_keywords query 3)
      (max 4 topK) (vectorChunks.map Chunk.id)).isEmpty then vectorChunks
  else
    vectorChunks ++ keyword_supplement_chunks docsResult rowsFor
      (extract_query_keywords query 3) (max 4 topK) (vectorChunks.map Chunk.id)

/-! ### Rerank stage (rag.py lines 669-743) -/

structure RerankSettings where
  rerank_enabled : Bool := false
  rerank_candidates : Int := 50
  rerank_top_n : Int := 6
deriving Repr, DecidableEq

structure CohereResult where
  index : Option Int := none
  relevance_score : Option Rat := none
deriving Repr, DecidableEq

/-- An HTTP response from the Cohere v2/rerank endpoint. -/
structure CohereResp where
  status : Nat
  results : List CohereResult
deriving Repr, DecidableEq

/-- The `sorted(..., key=lambda c: (c["document_id"], c["chunk_index"]))`
order: Python tuple comparison, lexicographic. -/
def byDocOrder (a b : Chunk) : Prop :=
  a.document_id < b.document_id ∨
    (a.document_id = b.document_id ∧ a.chunk_index ≤ b.chunk_index)

instance : DecidableRel byDocOrder := fun a b =>
  decidable_of_iff
    (a.document_id < b.document_id ∨
      (a.document_id = b.document_id ∧ a.chunk_index ≤ b.chunk_index)) Iff.rfl

instance : IsTotal Chunk byDocOrder := by
  constructor
  intro a b
  rcases lt_trichotomy a.document_id b.document_id with h | h | h
  · exact Or.inl (Or.inl h)
  · rcases Nat.le_total a.chunk_index b.chunk_index with h2 | h2
    · exact Or.inl (Or.inr ⟨h, h2⟩)
    · exact Or.inr (Or.inr ⟨h.symm, h2⟩)
  · exact Or.inr (Or.inl h)

instance : IsTrans Chunk byDocOrder := by
  constructor
  intro a b c hab hbc
  rcases hab with h1 | ⟨h1, h1i⟩
  · rcases hbc with h2 | ⟨h2, _⟩
    · exact Or.inl (h1.trans h2)
    · exact Or.inl (h2 ▸ h1)
  · rcases hbc with h2 | ⟨h2, h2i⟩
    · exact Or.inl (h1 ▸ h2)
    · exact Or.inr ⟨h1.trans h2, h1i.trans h2i⟩

/-- Model of `_cohere_rerank` (rag.py lines 701-743).  `resp = none` models a raised
exception (caught, `[]` returned); a non-200 status also yields `[]`. -/
def cohere_rerank (chunks : List Chunk) (resp : Option CohereResp) : List Chunk :=
  if chunks.isEmpty then []
  else
    match resp with
    | none => []
    | some r =>
      if r.status ≠ 200 then []
      else
        r.results.filterMap fun res =>
          match res.index with
          | none => none
          | some i =>
            if i < 0 ∨ (chunks.length : Int) ≤ i then none
            else
              let c := chunks.getD i.toNat default
              some (match res.relevance_score with
                    | some s => { c with rerank_score := some s }
                    | none => c)

/-- Model of `_apply_optional_rerank` (rag.py lines 669-698). -/
def apply_optional_rerank (chunks : List Chunk) (settings : RerankSettings)
    (cohereKey : Option String) (resp : Option CohereResp) : List Chunk :=
  if ¬settings.rerank_enabled ∨ chunks.isEmpty then
    List.insertionSort byDocOrder chunks
  else
    let candidates := (max 5 (min 100 settings.rerank_candidates)).toNat
    let topN0 := (max 1 (min 30 settings.rerank_top_n)).toNat
    let topN := if candidates < topN0 then candidates else topN0
    match cohereKey with
    | none => chunks.take topN
    | some _ =>
      let subset := chunks.take candidates
      let reranked := cohere_rerank subset resp
      if reranked.isEmpty then subset.take topN else reranked

/-! ### `retrieve_chunks_with_strategy` (rag.py lines 583-666)

The vector search (`search_similar_chunks` / the RPC inside the hybrid
path) is the oracle `vs topK threshold`; pool/chat filtering happens
inside the oracles.  The float thresholds are modelled as rationals; they
are only handed to the oracle, never computed with. -/

def plansFor (chatId : Option String) (intent : List Char) : List (Nat × Rat) :=
  if chatId.isSome then [(50, 0)]
  else if intent = "summary".toList then
    [(max RAG_TOP_K 8, max (RAG_SIMILARITY_THRESHOLD * (7/10)) (8/100)),
     (max (RAG_TOP_K * 2) 12, 0)]
  else
    [(RAG_TOP_K, RAG_SIMILARITY_THRESHOLD),
     (max (RAG_TOP_K + 3) 8, max (RAG_SIMILARITY_THRESHOLD * (6/10)) (8/100))]

/-- The chunk set a single `(top_k, threshold)` pass collects: the hybrid
path for conversation scope (rag.py lines 617-624), or vector search plus
keyword supplement for pool/global scope (lines 626-652). -/
def passChunks (vs : Nat → Rat → List Chunk)
    (docsResult : Option (List (String × String)))
    (rowsFor : List Char → Option (List Chunk))
    (query : List Char) (chatId : Option String) (topK : Nat) (th : Rat) : List Chunk :=
  if chatId.isSome then
    search_chunks_hybrid (vs topK th) docsResult rowsFor query topK
  else
    let cs := vs topK th
    let keywords := extract_query_keywords query 3
    if keywords.isEmpty then cs
    else
      let kw := keyword_supplement_chunks docsResult rowsFor keywords (max 4 topK)
        (cs.map Chunk.id)
      if kw.isEmpty then cs else cs ++ kw

def retrieveGo (vs : Nat → Rat → List Chunk)
    (docsResult : Option (List (String × String)))
    (rowsFor : List Char → Option (List Chunk))
    (query : List Char) (chatId : Option String)
    (settings : RerankSettings) (cohereKey : Option String)
    (resp : Option CohereResp) : List (Nat × Rat) → List Chunk
  | [] => []
  | (topK, th) :: rest =>
    if (passChunks vs docsResult rowsFor query chatId topK th).isEmpty then
      retrieveGo vs docsResult rowsFor query chatId settings cohereKey resp rest
    else
      apply_optional_rerank (passChunks vs docsResult rowsFor query chatId topK th)
        settings cohereKey resp

def retrieve_chunks_with_strategy (vs : Nat → Rat → List Chunk)
    (docsResult : Option (List (String × String)))
    (rowsFor : List Char → Option (List Chunk))
    (query : List Char) (chatId : Option String) (intent : List Char)
    (settings : RerankSettings) (cohereKey : Option String)
    (resp : Option CohereResp) : List Chunk :=
  retrieveGo vs docsResult rowsFor query chatId settings cohereKey resp
    (plansFor chatId intent)

/-! ### `process_document` (rag.py lines 372-413) and its caller

`generate_embeddings` is an external HTTP call: its outcome is the
parameter `embedResult` (`.error e` models a raised exception, including
the missing-api-key `RuntimeError` and non-200 responses).  The tiktoken
token counter of `_estimate_tokens` is the oracle `tok`.  Database writes
are captured as the list of `update_document_status` calls. -/

structure StatusUpdate where
  status : String
  error_message : Option String := none
deriving Repr, DecidableEq

structure PDOutcome where
  updates : List StatusUpdate
  ret : Except String (Nat × Nat)
deriving Repr

def process_document (tok : List Char → Nat) (text : List Char)
    (embedResult : Except String (List (List Rat))) : PDOutcome :=
  let chunks := chunk_text text CHUNK_SIZE CHUNK_OVERLAP
  if chunks.isEmpty then
    { updates := [{ status := "error", error_message := some "No text extracted" }],
      ret := .ok (0, 0) }
  else
    match embedResult with
    | .error e =>
      { updates := [{ status := "error", error_message := some e }], ret := .error e }
    | .ok embeddings =>
      let totalTokens := ((chunks.zip embeddings).map (fun p => max 1 (tok p.1))).sum
      { updates := [{ status := "ready" }], ret := .ok (chunks.length, totalTokens) }

/-- The view of the document the upload endpoint returns. -/
structure DocView where
  status : String
  error_message : Option String := none
  chunk_count : Nat := 0
deriving Repr, DecidableEq

/-- The `try: ... await rag_mod.process_document(...) ... except Exception`
wrapper in every `main.py` upload handler: any exception raised by
`process_document` is caught there and turned into an error view, so the
handler itself returns normally (`Except.ok`) in both cases — nothing
propagates to *its* caller.  (The further steps inside the `try` block are
irrelevant to the claims and omitted.) -/
def upload_document_handler (pd : PDOutcome) : Except String DocView :=
  match pd.ret with
  | .ok res => .ok { status := "ready", chunk_count := res.1 }
  | .error e => .ok { status := "error", error_message := some e }

/-! ### Reciprocal Rank Fusion — spec-side model

Modelled from the spec: "merge the two ranked lists via Reciprocal Rank
Fusion: score(chunk) = Σ over lists containing it of
`1/(k + rank_in_that_list + 1)`, with `k=60`; sort by descending fused
score."  It exists only to compare the code's merge against the spec's
words; `rag.py` contains no such computation. -/

/-- Modelled from the spec (not from the source, which has no such
computation): the fused RRF score of chunk id `cid` given the ranked id
lists, `Σ` over the lists containing it of `1/(k + rank + 1)`. -/
def rrfScore (k : Nat) (lists : List (List Nat)) (cid : Nat) : Rat :=
  (lists.map fun l =>
    match l.indexOf? cid with
    | some r => (1 : Rat) / (k + r + 1)
    | none => 0).sum

/-! ### Supporting lemmas about the character model -/

theorem char_toNat_ofNat_valid {n : Nat} (h : n.isValidChar) : (Char.ofNat n).toNat = n := by
  unfold Char.ofNat
  rw [dif_pos h]
  rfl

theorem pyLowerChar_notUpper (c : Char) :
    (pyLowerChar c).toNat < 65 ∨ 90 < (pyLowerChar c).toNat := by
  by_cases h1 : c = 'Ä'
  · subst h1; decide
  by_cases h2 : c = 'Ö'
  · subst h2; decide
  by_cases h3 : c = 'Ü'
  · subst h3; decide
  unfold pyLowerChar Char.toLower
  rw [if_neg h1, if_neg h2, if_neg h3]
  by_cases h4 : 65 ≤ c.toNat ∧ c.toNat ≤ 90
  · rw [if_pos h4]
    have hv : (c.toNat + 32).isValidChar := Or.inl (by omega)
    have := char_toNat_ofNat_valid hv
    omega
  · rw [if_neg h4]
    omega

theorem pyLowerChar_notUmlaut (c : Char) :
    pyLowerChar c ≠ 'Ä' ∧ pyLowerChar c ≠ 'Ö' ∧ pyLowerChar c ≠ 'Ü' := by
  by_cases h1 : c = 'Ä'
  · subst h1; decide
  by_cases h2 : c = 'Ö'
  · subst h2; decide
  by_cases h3 : c = 'Ü'
  · subst h3; decide
  unfold pyLowerChar Char.toLower
  rw [if_neg h1, if_neg h2, if_neg h3]
  by_cases h4 : 65 ≤ c.toNat ∧ c.toNat ≤ 90
  · rw [if_pos h4]
    have hv : (c.toNat + 32).isValidChar := Or.inl (by omega)
    have ht := char_toNat_ofNat_valid hv
    have key : ∀ d : Char, Char.ofNat (c.toNat + 32) = d → c.toNat + 32 = d.toNat := by
      intro d he
      have h5 := congrArg Char.toNat he
      rw [ht] at h5
      exact h5
    refine ⟨fun he => ?_, fun he => ?_, fun he => ?_⟩
    · have h5 := key _ he
      have h9 : ('Ä').toNat = 196 := by decide
      omega
    · have h5 := key _ he
      have h9 : ('Ö').toNat = 214 := by decide
      omega
    · have h5 := key _ he
      have h9 : ('Ü').toNat = 220 := by decide
      omega
  · rw [if_neg h4]
    exact ⟨h1, h2, h3⟩

theorem pyLowerChar_fix_of (d : Char) (hu : d.toNat < 65 ∨ 90 < d.toNat)
    (h1 : d ≠ 'Ä') (h2 : d ≠ 'Ö') (h3 : d ≠ 'Ü') : pyLowerChar d = d := by
  unfold pyLowerChar Char.toLower
  rw [if_neg h1, if_neg h2, if_neg h3, if_neg (by omega)]

theorem pyLowerChar_idem (c : Char) : pyLowerChar (pyLowerChar c) = pyLowerChar c :=
  pyLowerChar_fix_of _ (pyLowerChar_notUpper c) (pyLowerChar_notUmlaut c).1
    (pyLowerChar_notUmlaut c).2.1 (pyLowerChar_notUmlaut c).2.2

/-! ### Claim theorems -/

/-- C9: `should_use_image_retrieval` returns false for every query when
mode is "off", true for every query when mode is "on", and for mode
"auto" returns true iff the lowercased query contains one of the fixed
visual-content keywords; in particular true for
("show me the chart on page 3", "auto") and false for
("what is the deadline?", "auto"). -/
theorem should_use_image_retrieval_spec :
    (∀ q, should_use_image_retrieval q "off".toList = false) ∧
    (∀ q, should_use_image_retrieval q "on".toList = true) ∧
    (∀ q, should_use_image_retrieval q "auto".toList = true ↔
      ∃ kw ∈ IMAGE_QUERY_KEYWORDS, containsSub kw (pyLower q) = true) ∧
    should_use_image_retrieval "show me the chart on page 3".toList "auto".toList = true ∧
    should_use_image_retrieval "what is the deadline?".toList "auto".toList = false := by
  refine ⟨fun q => rfl, fun q => rfl, fun q => ?_, by decide, by decide⟩
  show (IMAGE_QUERY_KEYWORDS.any fun kw => containsSub kw (pyLower q)) = true ↔ _
  exact List.any_eq_true

/-- Sample chunks used by concrete witnesses. -/
def cA : Chunk := { id := 1, document_id := "d1", chunk_index := 0, content := "alpha" }

def cB : Chunk := { id := 2, document_id := "d1", chunk_index := 1, content := "beta" }

def cC : Chunk := { id := 3, document_id := "d2", chunk_index := 0, content := "gamma" }

/-- C5: with reranking disabled, the rerank stage returns the input
candidates sorted ascending by `(document_id, chunk_index)`. -/
theorem rerank_disabled_sorts_by_document_order (chunks : List Chunk)
    (settings : RerankSettings) (cohereKey : Option String) (resp : Option CohereResp)
    (h : settings.rerank_enabled = false) :
    (apply_optional_rerank chunks settings cohereKey resp).Perm chunks ∧
    (apply_optional_rerank chunks settings cohereKey resp).Sorted byDocOrder := by
  unfold apply_optional_rerank
  rw [if_pos (Or.inl (by simp [h]))]
  exact ⟨List.perm_insertionSort byDocOrder chunks, List.sorted_insertionSort byDocOrder chunks⟩

/-- Witness for C5 at a concrete out-of-order candidate list. -/
theorem rerank_disabled_sorts_by_document_order_witness :
    ({ : RerankSettings }.rerank_enabled = false) ∧
    ((apply_optional_rerank [cC, cB, cA] {} none none).Perm [cC, cB, cA] ∧
     (apply_optional_rerank [cC, cB, cA] {} none none).Sorted byDocOrder) :=
  ⟨rfl, rerank_disabled_sorts_by_document_order [cC, cB, cA] {} none none rfl⟩

/-- C6: with reranking enabled and a non-empty candidate list, a failed
external rerank call (no credential, raised exception, or non-2xx
response) makes the rerank stage return the first `top_n` candidates
unreranked; being a total function, it raises nothing. -/
theorem rerank_failure_returns_first_topN (chunks : List Chunk)
    (settings : RerankSettings) (cohereKey : Option String) (resp : Option CohereResp)
    (hen : settings.rerank_enabled = true) (hne : chunks ≠ [])
    (hfail : cohereKey = none ∨ resp = none ∨
      ∃ r, resp = some r ∧ ¬(200 ≤ r.status ∧ r.status < 300)) :
    apply_optional_rerank chunks settings cohereKey resp =
      chunks.take (min ((max 1 (min 30 settings.rerank_top_n)).toNat)
                       ((max 5 (min 100 settings.rerank_candidates)).toNat)) := by
  have h1 : ¬(¬settings.rerank_enabled ∨ chunks.isEmpty = true) := by
    simp [hen, List.isEmpty_iff, hne]
  have hmin : ∀ a b : Nat, (if b < a then b else a) = min a b := by
    intro a b
    rcases Nat.lt_or_ge b a with h | h
    · rw [if_pos h, Nat.min_eq_right (Nat.le_of_lt h)]
    · rw [if_neg (Nat.not_lt.mpr h), Nat.min_eq_left h]
  have hrr : (resp = none ∨ ∃ r, resp = some r ∧ ¬(200 ≤ r.status ∧ r.status < 300)) →
      ∀ subset : List Chunk, cohere_rerank subset resp = [] := by
    intro hresp subset
    rcases hresp with h | ⟨r, hr, hst⟩
    · subst h
      unfold cohere_rerank
      split <;> rfl
    · subst hr
      have h200 : r.status ≠ 200 := fun hq => hst (by omega)
      unfold cohere_rerank
      split
      · rfl
      · show (if r.status ≠ 200 then [] else _) = []
        rw [if_pos h200]
  cases cohereKey with
  | none =>
    unfold apply_optional_rerank
    rw [if_neg h1]
    show chunks.take _ = _
    rw [hmin]
  | some k =>
    have hresp : resp = none ∨ ∃ r, resp = some r ∧ ¬(200 ≤ r.status ∧ r.status < 300) := by
      rcases hfail with h | h | h
      · exact absurd h (by simp)
      · exact Or.inl h
      · exact Or.inr h
    unfold apply_optional_rerank
    rw [if_neg h1]
    show (if (cohere_rerank _ resp).isEmpty then _ else _) = _
    rw [hrr hresp]
    show (chunks.take _).take _ = _
    rw [List.take_take, hmin, Nat.min_assoc, Nat.min_self]

/-- Witness for C6: rerank enabled, one candidate, no Cohere key. -/
theorem rerank_failure_returns_first_topN_witness :
    (({ rerank_enabled := true : RerankSettings }.rerank_enabled = true) ∧
      [cA, cB] ≠ [] ∧
      ((none : Option String) = none ∨ (none : Option CohereResp) = none ∨
        ∃ r, (none : Option CohereResp) = some r ∧ ¬(200 ≤ r.status ∧ r.status < 300))) ∧
    apply_optional_rerank [cA, cB] { rerank_enabled := true } none none =
      [cA, cB].take (min ((max 1 (min 30 (6 : Int))).toNat) ((max 5 (min 100 (50 : Int))).toNat)) :=
  ⟨⟨rfl, by decide, Or.inl rfl⟩,
   rerank_failure_returns_first_topN [cA, cB] { rerank_enabled := true } none none rfl
     (by decide) (Or.inl rfl)⟩

/-- C4: when chunking yields no chunks or embedding generation fails,
`process_document` records an `error` status with a message, and the
upload handler that calls it catches whatever it raises, so no exception
reaches the handler's caller. -/
theorem process_document_failure_handling (tok : List Char → Nat) (text : List Char)
    (embedResult : Except String (List (List Rat)))
    (h : chunk_text text CHUNK_SIZE CHUNK_OVERLAP = [] ∨ ∃ e, embedResult = Except.error e) :
    (∃ msg, ({ status := "error", error_message := some msg } : StatusUpdate) ∈
      (process_document tok text embedResult).updates) ∧
    ∃ d, upload_document_handler (process_document tok text embedResult) = Except.ok d := by
  unfold process_document
  by_cases hc : (chunk_text text CHUNK_SIZE CHUNK_OVERLAP).isEmpty
  · rw [if_pos hc]
    exact ⟨⟨"No text extracted", List.mem_singleton.mpr rfl⟩, ⟨_, rfl⟩⟩
  · rw [if_neg hc]
    rcases h with h | ⟨e, he⟩
    · exact absurd (List.isEmpty_iff.mpr h) hc
    · subst he
      exact ⟨⟨e, List.mem_singleton.mpr rfl⟩, ⟨_, rfl⟩⟩

/-- Witness for C4: whitespace-only text chunks to nothing; and a failing
embedding call on real text. -/
theorem process_document_failure_handling_witness :
    (chunk_text "   ".toList CHUNK_SIZE CHUNK_OVERLAP = [] ∨
      ∃ e, (Except.ok [] : Except String (List (List Rat))) = Except.error e) ∧
    ((∃ msg, ({ status := "error", error_message := some msg } : StatusUpdate) ∈
      (process_document (fun _ => 0) "   ".toList (Except.ok [])).updates) ∧
     ∃ d, upload_document_handler (process_document (fun _ => 0) "   ".toList (Except.ok [])) =
       Except.ok d) :=
  ⟨Or.inl (by decide),
   process_document_failure_handling (fun _ => 0) "   ".toList (Except.ok [])
     (Or.inl (by decide))⟩

theorem suppGo_nil_of_no_rows (docs : List (String × String))
    (rowsFor : List Char → Option (List Chunk)) (limit : Nat) (excludeIds : List Nat)
    (hrows : ∀ w, rowsFor w = none ∨ rowsFor w = some []) :
    ∀ (kws : List (List Char)) (seen : List Nat),
      suppGo docs rowsFor limit excludeIds kws [] seen = [] := by
  intro kws
  induction kws with
  | nil => intro seen; rfl
  | cons kw rest ih =>
    intro seen
    unfold suppGo
    split
    · rfl
    · rcases hrows kw with h | h <;> rw [h]
      · exact ih seen
      · exact ih seen

theorem keyword_supplement_chunks_of_no_rows (docsResult : Option (List (String × String)))
    (rowsFor : List Char → Option (List Chunk)) (keywords : List (List Char))
    (limit : Nat) (excludeIds : List Nat)
    (hrows : ∀ w, rowsFor w = none ∨ rowsFor w = some []) :
    keyword_supplement_chunks docsResult rowsFor keywords limit excludeIds = [] := by
  unfold keyword_supplement_chunks
  split
  · rfl
  · cases docsResult with
    | none => rfl
    | some docs =>
      show (if docs.isEmpty then [] else _) = []
      split
      · rfl
      · exact suppGo_nil_of_no_rows docs rowsFor limit excludeIds hrows keywords []

theorem search_chunks_hybrid_nil_of_no_rows (docsResult : Option (List (String × String)))
    (rowsFor : List Char → Option (List Chunk)) (query : List Char) (topK : Nat)
    (hrows : ∀ w, rowsFor w = none ∨ rowsFor w = some []) :
    search_chunks_hybrid [] docsResult rowsFor query topK = [] := by
  unfold search_chunks_hybrid
  show (if (extract_query_keywords query 3).isEmpty then _ else _) = []
  split
  · rfl
  · rw [keyword_supplement_chunks_of_no_rows _ _ _ _ _ hrows]
    rfl

/-- C7: when no adaptive retrieval pass produces a vector or lexical hit,
`retrieve_chunks_with_strategy` returns the empty list; being a total
function, it raises no error. -/
theorem retrieve_no_hits_returns_empty (vs : Nat → Rat → List Chunk)
    (docsResult : Option (List (String × String)))
    (rowsFor : List Char → Option (List Chunk))
    (query : List Char) (chatId : Option String) (intent : List Char)
    (settings : RerankSettings) (cohereKey : Option String) (resp : Option CohereResp)
    (hvs : ∀ k t, vs k t = [])
    (hrows : ∀ w, rowsFor w = none ∨ rowsFor w = some []) :
    retrieve_chunks_with_strategy vs docsResult rowsFor query chatId intent settings
      cohereKey resp = [] := by
  have hpass : ∀ topK th, passChunks vs docsResult rowsFor query chatId topK th = [] := by
    intro topK th
    unfold passChunks
    split
    · rw [hvs]
      exact search_chunks_hybrid_nil_of_no_rows docsResult rowsFor query topK hrows
    · rw [hvs]
      show (if (extract_query_keywords query 3).isEmpty then _ else _) = []
      split
      · rfl
      · rw [keyword_supplement_chunks_of_no_rows _ _ _ _ _ hrows]
        rfl
  unfold retrieve_chunks_with_strategy
  generalize plansFor chatId intent = plans
  induction plans with
  | nil => rfl
  | cons plan rest ih =>
    obtain ⟨topK, th⟩ := plan
    unfold retrieveGo
    rw [hpass topK th]
    exact ih

/-- Witness for C7 at concrete always-empty search oracles. -/
theorem retrieve_no_hits_returns_empty_witness :
    ((∀ k t, (fun (_ : Nat) (_ : Rat) => ([] : List Chunk)) k t = []) ∧
      (∀ w, (fun (_ : List Char) => (some ([] : List Chunk))) w = none ∨
        (fun (_ : List Char) => (some ([] : List Chunk))) w = some [])) ∧
    retrieve_chunks_with_strategy (fun _ _ => []) (some []) (fun _ => some [])
      "anything".toList none "fact".toList {} none none = [] :=
  ⟨⟨fun _ _ => rfl, fun _ => Or.inr rfl⟩,
   retrieve_no_hits_returns_empty (fun _ _ => []) (some []) (fun _ => some [])
     "anything".toList none "fact".toList {} none none
     (fun _ _ => rfl) (fun _ => Or.inr rfl)⟩

theorem splitTokensGo_chars :
    ∀ (l acc t : List Char), t ∈ splitTokensGo l acc → ∀ c ∈ t, c ∈ l ∨ c ∈ acc := by
  intro l
  induction l with
  | nil =>
    intro acc t ht c hc
    unfold splitTokensGo at ht
    split at ht
    · exact absurd ht (List.not_mem_nil t)
    · rw [List.mem_singleton] at ht
      subst ht
      exact Or.inr (List.mem_reverse.mp hc)
  | cons a rest ih =>
    intro acc t ht c hc
    unfold splitTokensGo at ht
    split at ht
    · split at ht
      · rcases ih [] t ht c hc with h | h
        · exact Or.inl (List.mem_cons_of_mem a h)
        · exact absurd h (List.not_mem_nil c)
      · rcases List.mem_cons.mp ht with h | h
        · subst h
          exact Or.inr (List.mem_reverse.mp hc)
        · rcases ih [] t h c hc with h2 | h2
          · exact Or.inl (List.mem_cons_of_mem a h2)
          · exact absurd h2 (List.not_mem_nil c)
    · rcases ih (a :: acc) t ht c hc with h | h
      · exact Or.inl (List.mem_cons_of_mem a h)
      · rcases List.mem_cons.mp h with h2 | h2
        · exact Or.inl (by rw [h2]; exact List.mem_cons_self _ _)
        · exact Or.inr h2

theorem map_fix_of_forall {f : Char → Char} :
    ∀ {t : List Char}, (∀ c ∈ t, f c = c) → t.map f = t := by
  intro t
  induction t with
  | nil => intro _; rfl
  | cons a s ih =>
    intro h
    simp only [List.map_cons]
    rw [h a (List.mem_cons_self a s), ih (fun c hc => h c (List.mem_cons_of_mem a hc))]

/-- C10: `_extract_query_keywords` returns at most 3 distinct lowercased
terms, each at least 4 characters long and not a stopword, ordered by
decreasing length. -/
theorem extract_query_keywords_spec (query : List Char) :
    (extract_query_keywords query 3).length ≤ 3 ∧
    (extract_query_keywords query 3).Nodup ∧
    (∀ t ∈ extract_query_keywords query 3,
      4 ≤ t.length ∧ t ∉ GERMAN_STOPWORDS ∧ pyLower t = t) ∧
    (extract_query_keywords query 3).Sorted byLenDesc := by
  unfold extract_query_keywords
  refine ⟨?_, ?_, ?_, ?_⟩
  · rw [List.length_take]
    exact Nat.min_le_left _ _
  · refine List.Nodup.sublist (List.take_sublist _ _) ?_
    exact ((List.perm_insertionSort byLenDesc _).nodup_iff).mpr (List.nodup_dedup _)
  · intro t ht
    have h1 := List.mem_of_mem_take ht
    have h2 := ((List.perm_insertionSort byLenDesc _).mem_iff).mp h1
    have h3 := List.mem_dedup.mp h2
    obtain ⟨htok, hpred⟩ := List.mem_filter.mp h3
    simp only [Bool.and_eq_true, decide_eq_true_eq] at hpred
    have hch : ∀ c ∈ t, c ∈ pyLower query := by
      intro c hc
      exact (splitTokensGo_chars (pyLower query) [] t htok c hc).resolve_right
        (List.not_mem_nil c)
    refine ⟨hpred.1, hpred.2, ?_⟩
    refine map_fix_of_forall ?_
    intro c hc
    obtain ⟨c0, _, hc0⟩ := List.mem_map.mp (hch c hc)
    rw [← hc0, pyLowerChar_idem]
  · exact List.Pairwise.sublist (List.take_sublist _ _)
      (List.sorted_insertionSort byLenDesc _)

theorem addRows_concat (docs : List (String × String)) (limit : Nat) (ex : List Nat) :
    ∀ (rows supp : List Chunk) (seen : List Nat),
      ∃ added, (addRows docs limit ex rows supp seen).1 = supp ++ added ∧
        ∀ c ∈ added, c.id ∉ ex ∧ c.similarity = 1/100 := by
  intro rows
  induction rows with
  | nil =>
    intro supp seen
    exact ⟨[], (List.append_nil supp).symm, fun c hc => absurd hc (List.not_mem_nil c)⟩
  | cons row rest ih =>
    intro supp seen
    unfold addRows
    split
    · exact ih supp seen
    · rename_i hnn
      have hexc : row.id ∉ ex := fun h => hnn (Or.inr h)
      have hprops : (enrich docs row).id ∉ ex ∧ (enrich docs row).similarity = 1/100 :=
        ⟨hexc, rfl⟩
      split
      · refine ⟨[enrich docs row], rfl, ?_⟩
        intro c hc
        rw [List.mem_singleton] at hc
        rw [hc]
        exact hprops
      · obtain ⟨added, ha, hp⟩ := ih (supp ++ [enrich docs row]) (row.id :: seen)
        refine ⟨enrich docs row :: added, ?_, ?_⟩
        · rw [ha, List.append_assoc]
          rfl
        · intro c hc
          rcases List.mem_cons.mp hc with h | h
          · rw [h]
            exact hprops
          · exact hp c h

theorem suppGo_concat (docs : List (String × String))
    (rowsFor : List Char → Option (List Chunk)) (limit : Nat) (ex : List Nat) :
    ∀ (kws : List (List Char)) (supp : List Chunk) (seen : List Nat),
      ∃ added, suppGo docs rowsFor limit ex kws supp seen = supp ++ added ∧
        ∀ c ∈ added, c.id ∉ ex ∧ c.similarity = 1/100 := by
  intro kws
  induction kws with
  | nil =>
    intro supp seen
    exact ⟨[], (List.append_nil supp).symm, fun c hc => absurd hc (List.not_mem_nil c)⟩
  | cons kw rest ih =>
    intro supp seen
    unfold suppGo
    split
    · exact ⟨[], (List.append_nil supp).symm, fun c hc => absurd hc (List.not_mem_nil c)⟩
    · cases hr : rowsFor kw with
      | none => exact ih supp seen
      | some rows =>
        obtain ⟨a1, ha1, hp1⟩ := addRows_concat docs limit ex rows supp seen
        obtain ⟨a2, ha2, hp2⟩ :=
          ih (addRows docs limit ex rows supp seen).1 (addRows docs limit ex rows supp seen).2
        refine ⟨a1 ++ a2, ?_, ?_⟩
        · show suppGo docs rowsFor limit ex rest (addRows docs limit ex rows supp seen).1
            (addRows docs limit ex rows supp seen).2 = supp ++ (a1 ++ a2)
          rw [ha2, ha1, List.append_assoc]
        · intro c hc
          rcases List.mem_append.mp hc with h | h
          · exact hp1 c h
          · exact hp2 c h

theorem keyword_supplement_chunks_props (docsResult : Option (List (String × String)))
    (rowsFor : List Char → Option (List Chunk)) (keywords : List (List Char))
    (limit : Nat) (ex : List Nat) :
    ∀ c ∈ keyword_supplement_chunks docsResult rowsFor keywords limit ex,
      c.id ∉ ex ∧ c.similarity = 1/100 := by
  intro c hc
  unfold keyword_supplement_chunks at hc
  split at hc
  · exact absurd hc (List.not_mem_nil c)
  · split at hc
    · exact absurd hc (List.not_mem_nil c)
    · rename_i docs
      split at hc
      · exact absurd hc (List.not_mem_nil c)
      · obtain ⟨added, ha, hp⟩ := suppGo_concat docs rowsFor limit ex keywords [] []
        rw [ha] at hc
        exact hp c (by simpa using hc)

/-- C3 (amended): in a retrieval pass, the lexical (ILIKE) hits that are
not already among the vector hits are appended *after* the vector results
with placeholder similarity `0.01`; no Reciprocal Rank Fusion scoring or
re-sorting takes place; and when lexical search returns nothing the
vector results are used alone. -/
theorem search_chunks_hybrid_concat (vectorChunks : List Chunk)
    (docsResult : Option (List (String × String)))
    (rowsFor : List Char → Option (List Chunk)) (query : List Char) (topK : Nat) :
    (∃ kw, search_chunks_hybrid vectorChunks docsResult rowsFor query topK
        = vectorChunks ++ kw ∧
      ∀ c ∈ kw, c.id ∉ vectorChunks.map Chunk.id ∧ c.similarity = 1/100) ∧
    search_chunks_hybrid vectorChunks docsResult (fun _ => some []) query topK
      = vectorChunks := by
  constructor
  · unfold search_chunks_hybrid
    split
    · exact ⟨[], (List.append_nil vectorChunks).symm,
        fun c hc => absurd hc (List.not_mem_nil c)⟩
    · split
      · exact ⟨[], (List.append_nil vectorChunks).symm,
          fun c hc => absurd hc (List.not_mem_nil c)⟩
      · exact ⟨keyword_supplement_chunks docsResult rowsFor (extract_query_keywords query 3)
            (max 4 topK) (vectorChunks.map Chunk.id), rfl,
          keyword_supplement_chunks_props docsResult rowsFor (extract_query_keywords query 3)
            (max 4 topK) (vectorChunks.map Chunk.id)⟩
  · unfold search_chunks_hybrid
    split
    · rfl
    · rw [keyword_supplement_chunks_of_no_rows _ _ _ _ _ (fun _ => Or.inr rfl)]
      rfl

/-- Concrete ILIKE oracle for the C3 counterexample: the keyword
"projektrollen" matches the chunks `cB` and `cC`. -/
def cexRowsFor : List Char → Option (List Chunk) :=
  fun kw => if kw = "projektrollen".toList then some [cB, cC] else none

def cexDocs : Option (List (String × String)) :=
  some [("d1", "f1.txt"), ("d2", "f2.txt")]

/-- C3 counterexample: with vector hits `[cA, cB]` (ids 1, 2) and lexical
hits `[cB, cC]` (ids 2, 3), the merged list the code produces is
`[1, 2, 3]` — but the RRF score of chunk 2 (present in both lists)
strictly exceeds that of chunk 1, so the merged list is *not* sorted by
descending fused score as the claim states. -/
theorem hybrid_merge_not_rrf_sorted :
    ((search_chunks_hybrid [cA, cB] cexDocs cexRowsFor "projektrollen".toList 5).map Chunk.id
      = [1, 2, 3]) ∧
    rrfScore 60 [[1, 2], [2, 3]] 2 > rrfScore 60 [[1, 2], [2, 3]] 1 := by
  constructor
  · decide
  · have h2 : rrfScore 60 [[1, 2], [2, 3]] 2 = 1/62 + 1/61 := by
      norm_num [rrfScore, List.indexOf?, List.findIdx?]
    have h1 : rrfScore 60 [[1, 2], [2, 3]] 1 = 1/61 := by
      norm_num [rrfScore, List.indexOf?, List.findIdx?]
    rw [h1, h2]
    norm_num

/-! ### Chunk coverage machinery (claim C8) -/

/-- The non-whitespace characters of a string, in order. -/
def nonWs (l : List Char) : List Char := l.filter (fun c => !isSpaceChar c)

theorem nonWs_nil : nonWs [] = [] := rfl

theorem nonWs_append (a b : List Char) : nonWs (a ++ b) = nonWs a ++ nonWs b :=
  List.filter_append _ _

theorem nonWs_nlnl : nonWs nlnl = [] := rfl

theorem nonWs_dropWhile (l : List Char) :
    nonWs (l.dropWhile isSpaceChar) = nonWs l := by
  induction l with
  | nil => rfl
  | cons c t ih =>
    rw [List.dropWhile_cons]
    by_cases h : isSpaceChar c
    · rw [if_pos h, ih]
      show nonWs t = nonWs (c :: t)
      unfold nonWs
      rw [List.filter_cons, if_neg (by simp [h])]
    · rw [if_neg h]

theorem nonWs_reverse (l : List Char) : nonWs l.reverse = (nonWs l).reverse :=
  List.filter_reverse _ _

theorem nonWs_strip (l : List Char) : nonWs (stripChars l) = nonWs l := by
  unfold stripChars
  rw [nonWs_reverse, nonWs_dropWhile, nonWs_reverse, nonWs_dropWhile, List.reverse_reverse]

/-- Join paragraphs back with the `"\n\n"` separator (inverse of
`splitPara`). -/
def joinP : List (List Char) → List Char
  | [] => []
  | [p] => p
  | p :: ps => p ++ nlnl ++ joinP ps

theorem splitPara_ne_nil (l : List Char) : splitPara l ≠ [] := by
  unfold splitPara
  split
  · simp
  · simp
  · split
    · simp
    · split <;> simp

theorem joinP_cons_cons (c : Char) (h : List Char) (t : List (List Char)) :
    joinP ((c :: h) :: t) = c :: joinP (h :: t) := by
  cases t with
  | nil => rfl
  | cons x xs => rfl

theorem splitPara_joinP : ∀ l : List Char, joinP (splitPara l) = l := by
  intro l
  induction l using splitPara.induct with
  | case1 => rfl
  | case2 a => rfl
  | case3 a b rest h ih =>
    show joinP (if a = '\n' ∧ b = '\n' then [] :: splitPara rest else _) = _
    rw [if_pos h]
    obtain ⟨s0, st, hsp⟩ := List.exists_cons_of_ne_nil (splitPara_ne_nil rest)
    rw [hsp]
    rw [hsp] at ih
    show ([] : List Char) ++ nlnl ++ joinP (s0 :: st) = _
    rw [ih, h.1, h.2]
    rfl
  | case4 a b rest h hnil ih =>
    exact absurd hnil (splitPara_ne_nil (b :: rest))
  | case5 a b rest h s0 st hsp ih =>
    show joinP (if a = '\n' ∧ b = '\n' then [] :: splitPara rest else _) = _
    rw [if_neg h]
    rw [hsp]
    rw [hsp] at ih
    show joinP ((a :: s0) :: st) = _
    rw [joinP_cons_cons, ih]

theorem nonWs_joinP : ∀ ps : List (List Char), nonWs (joinP ps) = (ps.map nonWs).flatten := by
  intro ps
  induction ps with
  | nil => rfl
  | cons p qs ih =>
    cases qs with
    | nil => simp [joinP]
    | cons q rs =>
      show nonWs (p ++ nlnl ++ joinP (q :: rs)) = _
      rw [nonWs_append, nonWs_append, nonWs_nlnl, List.append_nil, ih]
      rfl

theorem hardSplit_sublist (cs ov : Nat) (hov : ov < cs) :
    ∀ (fuel : Nat) (para : List Char), para.length < fuel →
      para <+ (hardSplit cs ov fuel para).flatten := by
  intro fuel
  induction fuel with
  | zero =>
    intro para h
    exact absurd h (Nat.not_lt_zero _)
  | succ f ih =>
    intro para hlen
    cases para with
    | nil => exact List.Sublist.refl _
    | cons a rest0 =>
      show _ <+ (hardSplit cs ov (f + 1) (a :: rest0)).flatten
      unfold hardSplit
      split
      · rename_i hle
        have hd := List.length_drop (cs - ov) (a :: rest0)
        have hlen2 : (a :: rest0).length ≤ cs := by omega
        rw [List.flatten_cons, List.take_of_length_le hlen2]
        simp
      · rename_i hgt
        rw [List.flatten_cons]
        have hmin : min (cs - ov) cs = cs - ov := Nat.min_eq_left (Nat.sub_le _ _)
        have hsub1 : List.take (cs - ov) (a :: rest0) <+ List.take cs (a :: rest0) := by
          have h1 : List.take (cs - ov) (a :: rest0)
              = List.take (cs - ov) (List.take cs (a :: rest0)) := by
            rw [List.take_take, hmin]
          rw [h1]
          exact List.take_sublist _ _
        have hrec : List.drop (cs - ov) (a :: rest0)
            <+ (hardSplit cs ov f (List.drop (cs - ov) (a :: rest0))).flatten := by
          apply ih
          have hd := List.length_drop (cs - ov) (a :: rest0)
          have hl : (a :: rest0).length = rest0.length + 1 := rfl
          omega
        calc a :: rest0
            = List.take (cs - ov) (a :: rest0) ++ List.drop (cs - ov) (a :: rest0) :=
              (List.take_append_drop _ _).symm
          _ <+ List.take cs (a :: rest0) ++
              (hardSplit cs ov f (List.drop (cs - ov) (a :: rest0))).flatten :=
              List.Sublist.append hsub1 hrec

theorem nonWs_flatten_chunkFlush (chunks : List (List Char)) (cur : List Char) :
    nonWs (chunkFlush chunks cur).flatten = nonWs chunks.flatten ++ nonWs cur := by
  unfold chunkFlush
  split
  · rename_i h
    rw [List.isEmpty_iff.mp h, nonWs_nil, List.append_nil]
  · rw [List.flatten_append, nonWs_append, List.flatten_cons, List.flatten_nil,
      List.append_nil]

theorem nonWs_sublist_overlapSeed (ov : Nat) (chunks1 : List (List Char)) (p : List Char) :
    nonWs p <+ nonWs (overlapSeed ov chunks1 p) := by
  unfold overlapSeed
  split
  · rw [nonWs_append]
    exact List.sublist_append_right _ _
  · exact List.Sublist.refl _

theorem chunkGo_coverage (cs ov : Nat) (hov : ov < cs) :
    ∀ (paras chunks : List (List Char)) (current : List Char),
      nonWs chunks.flatten ++ nonWs current ++ (paras.map nonWs).flatten
        <+ nonWs (chunkGo cs ov paras chunks current).flatten := by
  intro paras
  induction paras with
  | nil =>
    intro chunks current
    show _ <+ nonWs (chunkFlush chunks current).flatten
    rw [nonWs_flatten_chunkFlush, List.map_nil, List.flatten_nil, List.append_nil]
  | cons para0 rest ih =>
    intro chunks current
    unfold chunkGo
    split
    · rename_i hpe
      have h0 : nonWs para0 = [] := by
        rw [← nonWs_strip para0, List.isEmpty_iff.mp hpe]
        rfl
      rw [List.map_cons, List.flatten_cons, h0, List.nil_append]
      exact ih chunks current
    · split
      · rename_i hpne hfit
        have key := ih chunks
          (if current.isEmpty then stripChars para0 else current ++ nlnl ++ stripChars para0)
        have hcur : nonWs (if current.isEmpty then stripChars para0
            else current ++ nlnl ++ stripChars para0) = nonWs current ++ nonWs para0 := by
          split
          · rename_i hce
            rw [List.isEmpty_iff.mp hce, nonWs_strip, nonWs_nil, List.nil_append]
          · rw [nonWs_append, nonWs_append, nonWs_nlnl, List.append_nil, nonWs_strip]
        rw [hcur] at key
        have heq : nonWs chunks.flatten ++ nonWs current ++
              ((para0 :: rest).map nonWs).flatten
            = nonWs chunks.flatten ++ (nonWs current ++ nonWs para0) ++
              (rest.map nonWs).flatten := by
          rw [List.map_cons, List.flatten_cons]
          simp [List.append_assoc]
        rw [heq]
        exact key
      · split
        · rename_i hpne hnofit hbig
          have hhs : stripChars para0 <+
              (hardSplit cs ov ((stripChars para0).length + 1) (stripChars para0)).flatten :=
            hardSplit_sublist cs ov hov _ _ (Nat.lt_succ_self _)
          have hp0 : nonWs para0 <+
              nonWs (hardSplit cs ov ((stripChars para0).length + 1)
                (stripChars para0)).flatten := by
            rw [← nonWs_strip para0]
            exact hhs.filter _
          have key := ih (chunkFlush chunks current ++
            hardSplit cs ov ((stripChars para0).length + 1) (stripChars para0)) []
          rw [List.flatten_append, nonWs_append, nonWs_flatten_chunkFlush, nonWs_nil] at key
          refine List.Sublist.trans ?_ key
          rw [List.map_cons, List.flatten_cons]
          simp only [List.append_assoc, List.nil_append]
          exact List.Sublist.append (List.Sublist.refl _)
            (List.Sublist.append (List.Sublist.refl _)
              (List.Sublist.append hp0 (List.Sublist.refl _)))
        · rename_i hpne hnofit hsmall
          have key := ih (chunkFlush chunks current)
            (overlapSeed ov (chunkFlush chunks current) (stripChars para0))
          rw [nonWs_flatten_chunkFlush] at key
          have hseed := nonWs_sublist_overlapSeed ov (chunkFlush chunks current)
            (stripChars para0)
          refine List.Sublist.trans ?_ key
          rw [List.map_cons, List.flatten_cons, ← nonWs_strip para0]
          simp only [List.append_assoc]
          exact List.Sublist.append (List.Sublist.refl _)
            (List.Sublist.append (List.Sublist.refl _)
              (List.Sublist.append hseed (List.Sublist.refl _)))

/-- C8: for every input and every configuration with `overlap <
chunk_size` (the regime in which the source loop terminates; the default
1500/200 satisfies it), the whitespace-stripped original text is an
order-preserving subsequence of the whitespace-stripped concatenation of
the produced chunks: no content is dropped, extra occurrences being the
overlap duplicates.  The effective `chunk_text` adds no breadcrumb
prefixes, so the chunks' non-prefix content is the chunks themselves. -/
theorem chunk_text_coverage (text : List Char) (cs ov : Nat) (hov : ov < cs) :
    nonWs text <+ nonWs (chunk_text text cs ov).flatten := by
  unfold chunk_text
  split
  · rename_i h
    have h0 : nonWs text = [] := by
      rw [← nonWs_strip text, List.isEmpty_iff.mp h]
      rfl
    rw [h0]
    exact List.nil_sublist _
  · have h0 := chunkGo_coverage cs ov hov (splitPara text) [] []
    have ht : nonWs text = ((splitPara text).map nonWs).flatten := by
      conv_lhs => rw [← splitPara_joinP text]
      rw [nonWs_joinP]
    rw [ht]
    simpa using h0

/-- Witness for C8 at a concrete document and the configured defaults. -/
theorem chunk_text_coverage_witness :
    200 < 1500 ∧
    nonWs "hello\n\nworld".toList <+
      nonWs (chunk_text "hello\n\nworld".toList 1500 200).flatten :=
  ⟨by decide, chunk_text_coverage "hello\n\nworld".toList 1500 200 (by decide)⟩

/-- C1 (code evidence): the *effective* `chunk_text` (the second,
character-based definition, which shadows the token-based one) enforces no
token budget at all.  At `chunk_size = 10, overlap = 5` on
`"aaaa\n\nbbbb\n\ncccc"` it emits the chunk `"\nbbbb\n\ncccc"` of 11
characters — beyond `chunk_size` even in the code's own unit — and at
`chunk_size = 1` it emits `"🤖"` unsplit (a 1-character chunk whose
cl100k_base encoding is famously more than one token), with no breadcrumb
handling anywhere. -/
theorem chunk_text_exceeds_budget :
    chunk_text "aaaa\n\nbbbb\n\ncccc".toList 10 5 =
      ["aaaa\n\nbbbb".toList, "\nbbbb\n\ncccc".toList] ∧
    (∃ c ∈ chunk_text "aaaa\n\nbbbb\n\ncccc".toList 10 5, 10 < c.length) ∧
    chunk_text "🤖".toList 1 0 = ["🤖".toList] := by
  refine ⟨by decide, by decide, by decide⟩

/-- C2 (code evidence): on the two-section document of Scenario B the
effective `chunk_text` (defaults 1500/200) returns ONE chunk — the whole
document verbatim — not two breadcrumb-prefixed chunks; the breadcrumb
logic lives only in the shadowed first definition. -/
theorem chunk_text_two_sections_single_chunk :
    chunk_text "## A\n\ntext1\n\n## B\n\ntext2".toList CHUNK_SIZE CHUNK_OVERLAP =
      ["## A\n\ntext1\n\n## B\n\ntext2".toList] ∧
    (chunk_text "## A\n\ntext1\n\n## B\n\ntext2".toList CHUNK_SIZE CHUNK_OVERLAP).length
      ≠ 2 := by
  refine ⟨by decide, by decide⟩

end XQT5
